import Mathlib

/-
  Verification development for the boring static-site generator.

  The program reads markdown post files, extracts frontmatter metadata
  (author, title, date, tags, description) line by line with anchored
  regular expressions, accumulates the remaining lines as the body,
  sorts posts by descending date and renders templates and feeds.

  The embedding below translates the current revision of the program
  (the one with watch mode, the clamped lop helper, the fatal date
  parse and the archive length branch).  Byte strings are modelled as
  List Char; fallible operations return Option; process aborts
  (log.Fatal, os.Exit, panics) are explicit constructors.
-/

set_option maxRecDepth 20000

namespace Boring

/-- Shorthand taking a Lean string literal to the List Char representation
used throughout the model. -/
def strL (s : String) : List Char := s.data

/-- Character class of the regexp escape for whitespace in the Go regexp
package (RE2): tab, newline, form feed, carriage return, space. -/
def goWS (c : Char) : Bool :=
  c = '\t' || c = '\n' || c = '\x0c' || c = '\r' || c = ' '

/-- Character class of unicode.IsSpace restricted to Latin-1, as used by
strings.TrimSpace: tab, newline, vertical tab, form feed, carriage
return, space, next line, no-break space. -/
def goSpace (c : Char) : Bool :=
  c = '\t' || c = '\n' || c = '\x0b' || c = '\x0c' || c = '\r' || c = ' ' ||
  c = '\x85' || c = '\xa0'

/-- True when the list contains no newline character; the regexp dot does
not match a newline. -/
def noNL (cs : List Char) : Bool := cs.all (fun c => c ≠ '\n')

/-- The contiguous segment of a list from position a (inclusive) to
position b (exclusive). -/
def seg (cs : List Char) (a b : Nat) : List Char := (cs.take b).drop a

/-- Generic single-character splitter, accumulator based.  Mirrors the
fragment production of strings.Split for a one-character separator. -/
def splitAux (sep : Char) : List Char → List Char → List (List Char)
  | [], cur => [cur.reverse]
  | c :: rest, cur =>
    if c = sep then cur.reverse :: splitAux sep rest []
    else splitAux sep rest (c :: cur)

/-- strings.Split with a one-character separator: n separators produce
n plus one fragments. -/
def splitOnChar (sep : Char) (cs : List Char) : List (List Char) :=
  splitAux sep cs []

/-- The dropCR step of bufio.ScanLines: a single trailing carriage return
is removed from a scanned line. -/
def dropCR (l : List Char) : List Char :=
  if l.getLast? = some '\r' then l.dropLast else l

/-- bufio.Scanner with ScanLines yields no token for input ending in a
newline beyond the last line, and no token at all for empty input. -/
def dropFinalEmpty (ps : List (List Char)) : List (List Char) :=
  if ps.getLast? = some [] then ps.dropLast else ps

/-- The sequence of tokens produced by bufio.Scanner with ScanLines on the
given file contents: split on newline, no final empty token, trailing
carriage returns stripped. -/
def scanLines (cs : List Char) : List (List Char) :=
  (dropFinalEmpty (splitOnChar '\n' cs)).map dropCR

/-- strings.TrimSpace: remove leading and trailing space characters. -/
def TrimSpace (cs : List Char) : List Char :=
  ((cs.dropWhile goSpace).reverse.dropWhile goSpace).reverse

/-- strings.Replace with count -1: replace every non-overlapping occurrence
of pat by rep, scanning left to right.  The empty-pattern case of the Go
function is not reachable here and is mapped to the identity. -/
def replaceAll (pat rep : List Char) (cs : List Char) : List Char :=
  match cs with
  | [] => []
  | c :: rest =>
    if h : pat.isPrefixOf (c :: rest) ∧ pat ≠ [] then
      rep ++ replaceAll pat rep ((c :: rest).drop pat.length)
    else
      c :: replaceAll pat rep rest
termination_by cs.length
decreasing_by
  · simp only [List.length_drop]
    have hp : 0 < pat.length := List.length_pos.mpr h.2
    simp only [List.length_cons]
    omega
  · simp

/-- md2html swaps every occurrence of the markdown extension for the html
one in a file name. -/
def md2html (f : List Char) : List Char :=
  replaceAll (strL ".md") (strL ".html") f

/- ### Frontmatter line patterns

The five patterns are anchored at both ends, consist of a literal
prefix, one whitespace character and a capture group of dot characters,
so a line matches exactly when it starts with the literal prefix
followed by one whitespace character and contains no newline after it. -/

def authorPat : List Char := strL "author:"

def titlePat : List Char := strL "title:"

def datePat : List Char := strL "date:"

def tagsPat : List Char := strL "tags:"

def descPat : List Char := strL "description:"

/-- A pattern of the form caret, literal prefix, whitespace escape,
dot-star capture group, dollar matches cs exactly when the prefix is
followed by one whitespace character and a newline-free remainder. -/
def prefixWS (p cs : List Char) : Bool :=
  p.isPrefixOf cs &&
  (match cs.drop p.length with
   | c :: rest => goWS c && noNL rest
   | [] => false)

/-- Match of AuthorRE. -/
def authorMatch (cs : List Char) : Bool := prefixWS authorPat cs

/-- Match of TitleRE. -/
def titleMatch (cs : List Char) : Bool := prefixWS titlePat cs

/-- Match of DateRE. -/
def dateMatch (cs : List Char) : Bool := prefixWS datePat cs

/-- Match of TagRE. -/
def tagsMatch (cs : List Char) : Bool := prefixWS tagsPat cs

/-- Match of DescRE. -/
def descMatch (cs : List Char) : Bool := prefixWS descPat cs

/-- The value of the capture group when one of the five patterns matches:
everything after the literal prefix and the single whitespace character.
This is what ReplaceAllString with the first group reference returns on
a matching line. -/
def metaCapture (p cs : List Char) : List Char := cs.drop (p.length + 1)

/-- A line is consumed as metadata exactly when one of the five patterns
matches it; each matching branch clears the useLine flag. -/
def isMetaLine (cs : List Char) : Bool :=
  authorMatch cs || titleMatch cs || dateMatch cs || tagsMatch cs || descMatch cs

/- ### The author line pattern

userLineRE is caret, group of dots, whitespace, group of dots,
whitespace, a literal open angle, group of dots, a literal close angle,
dollar.  The Go engine yields the leftmost-first (Perl style) match:
the first group is as long as possible, then the second group is as
long as possible.  Since the pattern is anchored on both sides, a match
is a decomposition of the whole line by the positions i and j of the
two whitespace characters, maximising i and then j. -/

/-- Candidate decomposition of cs for userLineRE at whitespace positions
i and j: the close angle is the final character, the open angle sits
right after position j, and the three groups are newline free. -/
def userPred (cs : List Char) (i j : Nat) : Bool :=
  decide (i < j) && decide (j + 2 < cs.length) &&
  goWS (cs.getD i ' ') && goWS (cs.getD j ' ') &&
  decide (cs.getD (j + 1) ' ' = '<') && decide (cs.getD (cs.length - 1) ' ' = '>') &&
  noNL (cs.take i) && noNL (seg cs (i + 1) j) && noNL (seg cs (j + 2) (cs.length - 1))

/-- Largest k strictly below the bound satisfying p, if any. -/
def findMaxBelow (p : Nat → Bool) : Nat → Option Nat
  | 0 => none
  | n + 1 => if p n then some n else findMaxBelow p n

/-- Leftmost-first match of userLineRE against cs: the largest whitespace
position i allowing a valid decomposition, and for that i the largest
valid second position j. -/
def userMatch (cs : List Char) : Option (Nat × Nat) :=
  match findMaxBelow
      (fun i => (findMaxBelow (fun j => userPred cs i j) cs.length).isSome)
      cs.length with
  | none => none
  | some i =>
    match findMaxBelow (fun j => userPred cs i j) cs.length with
    | none => none
    | some j => some (i, j)

/-- User record: an author of an article. -/
structure User where
  LName : List Char := []
  FName : List Char := []
  Email : List Char := []
  Pubkey : List Char := []
  UserName : List Char := []
deriving DecidableEq

/-- Parse fills the name and email fields from a line through three
ReplaceAllString calls with the group references of userLineRE.  When
the line matches, each call returns the corresponding group; when it
does not match, ReplaceAllString returns its input unchanged, so all
three fields receive the whole input line. -/
def User.Parse (u : User) (s : List Char) : User :=
  match userMatch s with
  | some (i, j) =>
    { u with
      FName := s.take i
      LName := seg s (i + 1) j
      Email := seg s (j + 2) (s.length - 1) }
  | none => { u with FName := s, LName := s, Email := s }

/-- True when userLineRE matches the line. -/
def userLineMatches (s : List Char) : Bool := (userMatch s).isSome

/-- Combine concatenates the first and last name separated by a space.
The email field does not appear in the output. -/
def User.Combine (u : User) : List Char := u.FName ++ [' '] ++ u.LName

/- ### Time values and the fixed RFC 1123 layout

Dates are parsed with time.Parse under the single layout
Mon, 02 Jan 2006 15:04:05 MST and printed back with the same layout.
A parsed time is modelled by its broken-down components together with
the time zone abbreviation it carried; Parse without an explicit
location resolves unknown abbreviations to a fabricated zone with
offset zero, and a GMT abbreviation with a signed hour suffix to the
corresponding offset. -/

structure GoTime where
  year : Int := 1
  month : Nat := 1
  day : Nat := 1
  hour : Nat := 0
  minute : Nat := 0
  second : Nat := 0
  zoneName : List Char := strL "UTC"
  zoneOffset : Int := 0
deriving DecidableEq

/-- The zero time value: January 1 of year 1, midnight, UTC. -/
def zeroTime : GoTime := {}

def isDigitA (c : Char) : Bool := '0' ≤ c && c ≤ '9'

def digitVal (c : Char) : Nat := c.toNat - '0'.toNat

def natOfDigits (ds : List Char) : Nat :=
  ds.foldl (fun a c => a * 10 + digitVal c) 0

/-- A fixed-width two-digit number field of the layout. -/
def num2 : List Char → Option (Nat × List Char)
  | a :: b :: rest =>
    if isDigitA a && isDigitA b then some (digitVal a * 10 + digitVal b, rest)
    else none
  | _ => none

/-- A fixed-width four-digit number field of the layout. -/
def num4 : List Char → Option (Nat × List Char)
  | a :: b :: c :: d :: rest =>
    if isDigitA a && isDigitA b && isDigitA c && isDigitA d then
      some (((digitVal a * 10 + digitVal b) * 10 + digitVal c) * 10 + digitVal d, rest)
    else none
  | _ => none

/-- A one-or-two-digit number field of the layout (the hour). -/
def num12 : List Char → Option (Nat × List Char)
  | a :: b :: rest =>
    if isDigitA a then
      if isDigitA b then some (digitVal a * 10 + digitVal b, rest)
      else some (digitVal a, b :: rest)
    else none
  | [a] => if isDigitA a then some (digitVal a, []) else none
  | [] => none

def expectChar (c : Char) : List Char → Option (List Char)
  | x :: rest => if x = c then some rest else none
  | [] => none

/-- ASCII lower casing, as used by the case-insensitive name comparison
of the time package. -/
def lowerA (c : Char) : Char :=
  if 'A' ≤ c && c ≤ 'Z' then Char.ofNat (c.toNat + 32) else c

def shortDayNames : List (List Char) :=
  [strL "Sun", strL "Mon", strL "Tue", strL "Wed", strL "Thu", strL "Fri", strL "Sat"]

def shortMonthNames : List (List Char) :=
  [strL "Jan", strL "Feb", strL "Mar", strL "Apr", strL "May", strL "Jun",
   strL "Jul", strL "Aug", strL "Sep", strL "Oct", strL "Nov", strL "Dec"]

/-- Name-table lookup of the time package: the first table entry that is
a case-insensitive prefix of the value wins; its index and the rest of
the value are returned. -/
def lookupTabAux (tab : List (List Char)) (i : Nat) (v : List Char) :
    Option (Nat × List Char) :=
  match tab with
  | [] => none
  | n :: rest =>
    if (v.take n.length).map lowerA = n.map lowerA then some (i, v.drop n.length)
    else lookupTabAux rest (i + 1) v

def lookupTab (tab : List (List Char)) (v : List Char) : Option (Nat × List Char) :=
  lookupTabAux tab 0 v

def upperA (c : Char) : Bool := 'A' ≤ c && c ≤ 'Z'

/-- Length of a signed one-or-two-digit hour offset at the head of the
value, zero when there is none or the magnitude exceeds 23. -/
def parseSignedOffset (v : List Char) : Nat :=
  match v with
  | c :: rest =>
    if c = '+' || c = '-' then
      let ds := rest.takeWhile isDigitA
      if ds = [] then 0
      else if natOfDigits ds ≤ 23 then 1 + ds.length else 0
    else 0
  | [] => 0

/-- Length of a GMT zone token, possibly with a signed hour suffix. -/
def parseGMT (v : List Char) : Nat :=
  let rest := v.drop 3
  if rest = [] then 3 else 3 + parseSignedOffset rest

/-- Leading upper-case letter count of the value, capped at six. -/
def countUpper (v : List Char) : Nat := ((v.take 6).takeWhile upperA).length

/-- Length of the time zone abbreviation at the head of the value, per
the zone scanner of the time package: the two mixed-case special names,
GMT with an optional signed hour, bare signed offsets, and otherwise
three to five upper-case letters with the four and five letter forms
ending in the letter T. -/
def parseTimeZone (v : List Char) : Option Nat :=
  if v.length < 3 then none
  else if v.take 4 = strL "ChST" ∨ v.take 4 = strL "MeST" then some 4
  else if v.take 3 = strL "GMT" then some (parseGMT v)
  else
    match v with
    | [] => none
    | c :: _ =>
      if c = '+' || c = '-' then
        let l := parseSignedOffset v
        if 0 < l then some l else none
      else
        match countUpper v with
        | 3 => some 3
        | 4 => if v.getD 3 ' ' = 'T' ∨ v.take 4 = strL "WITA" then some 4 else none
        | 5 => if v.getD 4 ' ' = 'T' then some 5 else none
        | _ => none

/-- Offset resolution of Parse without a location: the UTC abbreviation
is offset zero, a GMT abbreviation with a signed suffix carries that
many hours, and every other abbreviation is fabricated with offset
zero. -/
def zoneOffsetOf (name : List Char) : Int :=
  if name = strL "UTC" then 0
  else if 3 < name.length ∧ name.take 3 = strL "GMT" then
    match name.drop 3 with
    | '+' :: ds => (natOfDigits (ds.takeWhile isDigitA) : Int) * 3600
    | '-' :: ds => -((natOfDigits (ds.takeWhile isDigitA) : Int) * 3600)
    | _ => 0
  else 0

def isLeap (y : Int) : Bool := y % 4 = 0 && (y % 100 ≠ 0 || y % 400 = 0)

def daysIn (m : Nat) (y : Int) : Nat :=
  if m = 2 then (if isLeap y then 29 else 28)
  else if m = 4 ∨ m = 6 ∨ m = 9 ∨ m = 11 then 30
  else 31

/-- First half of the RFC 1123 layout: weekday name (validated against
the table, value unused and not checked for consistency), literal comma
and space, two-digit day, space, month name, space, four-digit year,
space.  Yields day, month and year with the rest of the value. -/
def parseDatePart (v : List Char) : Option (Nat × Nat × Nat × List Char) :=
  match lookupTab shortDayNames v with
  | none => none
  | some (_, v) =>
    match expectChar ',' v with
    | none => none
    | some v =>
      match expectChar ' ' v with
      | none => none
      | some v =>
        match num2 v with
        | none => none
        | some (day, v) =>
          match expectChar ' ' v with
          | none => none
          | some v =>
            match lookupTab shortMonthNames v with
            | none => none
            | some (m0, v) =>
              match expectChar ' ' v with
              | none => none
              | some v =>
                match num4 v with
                | none => none
                | some (year, v) =>
                  match expectChar ' ' v with
                  | none => none
                  | some v => some (day, m0 + 1, year, v)

/-- Second half of the RFC 1123 layout: one-or-two-digit hour, two-digit
minute and second with colon separators, then a space.  Yields hour,
minute and second with the rest of the value. -/
def parseClockPart (v : List Char) : Option (Nat × Nat × Nat × List Char) :=
  match num12 v with
  | none => none
  | some (hour, v) =>
    match expectChar ':' v with
    | none => none
    | some v =>
      match num2 v with
      | none => none
      | some (minute, v) =>
        match expectChar ':' v with
        | none => none
        | some v =>
          match num2 v with
          | none => none
          | some (second, v) =>
            match expectChar ' ' v with
            | none => none
            | some v => some (hour, minute, second, v)

/-- time.Parse with the RFC 1123 layout: the date part, the clock part
and a zone abbreviation ending the input; component ranges are
validated, the day against the length of the month. -/
def parseRFC1123 (v : List Char) : Option GoTime :=
  match parseDatePart v with
  | none => none
  | some (day, month, year, v) =>
    match parseClockPart v with
    | none => none
    | some (hour, minute, second, v) =>
      match parseTimeZone v with
      | none => none
      | some zlen =>
        let zone := v.take zlen
        let rest := v.drop zlen
        if rest = [] ∧ hour < 24 ∧ minute < 60 ∧ second < 60 ∧ 1 ≤ day ∧
            day ≤ daysIn month (year : Int) then
          some { year := (year : Int), month := month, day := day, hour := hour,
                 minute := minute, second := second, zoneName := zone,
                 zoneOffset := zoneOffsetOf zone }
        else none

/-- Days since the epoch of the civil date, by the standard era-based
conversion. -/
def daysFromCivil (y : Int) (m : Nat) (d : Nat) : Int :=
  let y2 : Int := if m ≤ 2 then y - 1 else y
  let era : Int := (if 0 ≤ y2 then y2 else y2 - 399) / 400
  let yoe : Int := y2 - era * 400
  let mp : Int := if 2 < m then (m : Int) - 3 else (m : Int) + 9
  let doy : Int := (153 * mp + 2) / 5 + (d : Int) - 1
  let doe : Int := yoe * 365 + yoe / 4 - yoe / 100 + doy
  era * 146097 + doe - 719468

/-- The instant of a time value in seconds since the epoch, shifting by
the zone offset. -/
def toUnix (t : GoTime) : Int :=
  daysFromCivil t.year t.month t.day * 86400 + (t.hour : Int) * 3600 +
    (t.minute : Int) * 60 + (t.second : Int) - t.zoneOffset

/-- t.After(u): strictly later instant. -/
def timeAfter (t u : GoTime) : Bool := decide (toUnix u < toUnix t)

/-- Decimal digits of a number zero-padded to the given width, as the
integer appender of the time package produces. -/
def padNum (w : Nat) (n : Nat) : List Char :=
  let ds := Nat.toDigits 10 n
  List.replicate (w - ds.length) '0' ++ ds

/-- time.Time.Format with the RFC 1123 layout.  The weekday is recomputed
from the civil date (it was not stored by Parse) and the zone
abbreviation is printed as stored. -/
def formatRFC1123 (t : GoTime) : List Char :=
  shortDayNames.getD (((daysFromCivil t.year t.month t.day + 4) % 7).toNat) [] ++
    strL ", " ++ padNum 2 t.day ++ [' '] ++
    shortMonthNames.getD (t.month - 1) [] ++ [' '] ++
    padNum 4 t.year.toNat ++ [' '] ++
    padNum 2 t.hour ++ [':'] ++ padNum 2 t.minute ++ [':'] ++ padNum 2 t.second ++
    [' '] ++ t.zoneName

/- ### Posts and the frontmatter parser -/

/-- Tag record: a specific tag for an article.  The id and creation time
are never populated by the parser. -/
structure Tag where
  ID : Int := 0
  Created : GoTime := zeroTime
  Name : List Char := []
deriving DecidableEq

/-- The tags branch of the parser: the capture is split on commas and
each fragment is trimmed of surrounding space and becomes a tag with
only its name populated, appended in order. -/
def splitTags (v : List Char) : List Tag :=
  (splitOnChar ',' v).map (fun frag => { Name := TrimSpace frag })

/-- Post record: the base type for all posts. -/
structure Post where
  Title : List Char := []
  Description : List Char := []
  Date : GoTime := zeroTime
  Body : List Char := []
  Author : User := {}
  Signed : Bool := false
  Signature : List Char := []
  Tags : List Tag := []
  URL : List Char := []
deriving DecidableEq

/-- The freshly constructed empty post. -/
def emptyPost : Post := {}

/-- Outcome of processing one scanned line inside LoadFromFile: either
the updated post, or a process abort from the date branch carrying the
printed diagnostic. -/
inductive LineStep where
  | next (p : Post)
  | fatal (msg : List Char)
deriving DecidableEq

/-- The branches of the loop body after the date branch: tags append to
the accumulated tag list, description overwrites, and a line matched by
none of the five patterns is appended to the body with a trailing
newline byte. -/
def finishLine (p : Post) (line : List Char) : Post :=
  let p := if tagsMatch line then
      { p with Tags := p.Tags ++ splitTags (metaCapture tagsPat line) } else p
  let p := if descMatch line then
      { p with Description := metaCapture descPat line } else p
  if isMetaLine line then p else { p with Body := p.Body ++ line ++ ['\n'] }

/-- The branches of the loop body before the date branch: the author
branch reparses the author fields and the title branch overwrites the
title. -/
def startLine (p : Post) (line : List Char) : Post :=
  let p := if authorMatch line then
      { p with Author := p.Author.Parse (metaCapture authorPat line) } else p
  if titleMatch line then { p with Title := metaCapture titlePat line } else p

/-- The loop body of LoadFromFile on one scanned line: the five pattern
branches in source order.  A date value that fails to parse logs the
source path and calls the fatal logger, ending the process. -/
def processLine (f : List Char) (p : Post) (line : List Char) : LineStep :=
  let p := startLine p line
  if dateMatch line then
    match parseRFC1123 (metaCapture datePat line) with
    | none => .fatal (strL "error in " ++ f)
    | some d => .next (finishLine { p with Date := d } line)
  else .next (finishLine p line)

/-- Result of LoadFromFile: normal return of the populated post, an
input-output error returned to the caller with the post as mutated so
far, or a process abort from inside the loop. -/
inductive LoadResult where
  | ok (p : Post)
  | ioError (p : Post)
  | fatal (msg : List Char)
deriving DecidableEq

/-- The scan loop of LoadFromFile over the scanned lines. -/
def loadLines (f : List Char) (p : Post) : List (List Char) → LoadResult
  | [] => .ok p
  | l :: ls =>
    match processLine f p l with
    | .fatal m => .fatal m
    | .next q => loadLines f q ls

/-- LoadFromFile: opening the file may fail, in which case the error is
returned and the post is left untouched; otherwise the scanner tokens
are processed in order.  The file is given as its contents when it can
be opened and read. -/
def Post.LoadFromFile (p : Post) (f : List Char) (content : Option (List Char)) :
    LoadResult :=
  match content with
  | none => .ioError p
  | some cs => loadLines f p (scanLines cs)

/-- Outcome of renderPost: a normal return of a post, or a process abort
raised inside LoadFromFile. -/
inductive RenderResult where
  | aborted (msg : List Char)
  | ok (p : Post)
deriving DecidableEq

/-- renderPost builds a post from a source file.  The declared err
variable is never assigned: the result of LoadFromFile is discarded, so
the following nil check is dead code and an input-output error from
LoadFromFile is silently swallowed; only a process abort from inside
LoadFromFile (the date branch) stops the run.  The body is then passed
to the markdown converter (an external collaborator, a parameter here)
and the page address is derived from the path argument. -/
def renderPost (md : List Char → List Char) (f fname : List Char)
    (content : Option (List Char)) : RenderResult :=
  match Post.LoadFromFile emptyPost f content with
  | .fatal m => .aborted m
  | .ok p | .ioError p =>
    .ok { p with Body := md p.Body, URL := '/' :: md2html fname }

/- ### Post collections, ordering, and the template helpers -/

/-- Posts.Less: the post at i orders before the post at j when its date
is strictly later. -/
def postLess (a b : Post) : Bool := timeAfter a.Date b.Date

/-- Insert a post into an already produced prefix of the descending
order. -/
def insertPost (x : Post) : List Post → List Post
  | [] => [x]
  | y :: ys => if postLess x y then x :: y :: ys else y :: insertPost x ys

/-- Model of sort.Sort over the Posts collection, with the Len, Less and
Swap methods of the source: a comparison sort producing a permutation
ordered by descending date.  sort.Sort itself is a library primitive;
insertion sort is taken as the model. -/
def sortPosts (l : List Post) : List Post := l.foldr insertPost []

/-- Go slicing p from start to end: valid when the bounds are ordered
and the upper bound is within the collection, a bounds panic otherwise
(none).  Within the program the upper bound is only ever at most the
length, so capacity beyond the length never comes into play. -/
def goSlice (p : List Post) (s e : Int) : Option (List Post) :=
  if 0 ≤ s ∧ s ≤ e ∧ e ≤ (p.length : Int) then
    some ((p.take e.toNat).drop s.toNat)
  else none

/-- The lop template helper: when the collection is shorter than the
requested upper bound the whole collection is returned, otherwise the
slice from start to end is taken. -/
def lop (p : List Post) (s e : Int) : Option (List Post) :=
  if (p.length : Int) < e then some p else goSlice p s e

/-- The archive selection in main: with fewer than five posts the
archive page receives the whole collection, otherwise the collection
with its first five elements dropped. -/
def archivePosts (posts : List Post) : List Post :=
  if posts.length < 5 then posts else posts.drop 5

/-- Outcome of the argument handling at the top of the build branch of
main. -/
inductive ArgOutcome where
  | exitOne
  | crash
  | proceed (src tmpl dst : List Char)
deriving DecidableEq

/-- The argument handling of the build branch: fewer than two entries in
the argument vector (that is, no arguments besides the program name)
prints the wrong-argument-count message and exits with code one;
otherwise the entries at positions one, two and three are read, and a
missing entry is an index-out-of-range panic. -/
def argsCheck (args : List (List Char)) : ArgOutcome :=
  if args.length < 2 then .exitOne
  else
    match args.get? 1, args.get? 2, args.get? 3 with
    | some s, some t, some d => .proceed s t d
    | _, _, _ => .crash

/- ### Observation functions

Derived views of the parser used to state its properties: the capture
of each pattern on a line, the last-occurrence folds, and the body and
tag accumulations. -/

/-- The title capture of a line, when TitleRE matches it. -/
def titleVal (l : List Char) : Option (List Char) :=
  if titleMatch l then some (metaCapture titlePat l) else none

/-- The description capture of a line, when DescRE matches it. -/
def descVal (l : List Char) : Option (List Char) :=
  if descMatch l then some (metaCapture descPat l) else none

/-- The author capture of a line, when AuthorRE matches it. -/
def authorVal (l : List Char) : Option (List Char) :=
  if authorMatch l then some (metaCapture authorPat l) else none

/-- The date capture of a line, when DateRE matches it. -/
def dateVal (l : List Char) : Option (List Char) :=
  if dateMatch l then some (metaCapture datePat l) else none

/-- The tags contributed by one line: the split and trimmed fragments of
the tags capture when TagRE matches, nothing otherwise. -/
def tagsOfLine (l : List Char) : List Tag :=
  if tagsMatch l then splitTags (metaCapture tagsPat l) else []

/-- Last-occurrence overwrite: the capture of the last line on which g
fires, the initial value when none does. -/
def lastWins {α : Type} (g : List Char → Option α) (ls : List (List Char)) (a0 : α) : α :=
  ls.foldl (fun acc l => (g l).getD acc) a0

/-- The author field after a sequence of lines: each author line
reparses over the previous value. -/
def authorFold (ls : List (List Char)) (u0 : User) : User :=
  ls.foldl (fun acc l =>
    match authorVal l with
    | some a => acc.Parse a
    | none => acc) u0

/-- The date field after a sequence of lines, assuming no parse failure
occurred: each date line overwrites with its parsed value. -/
def dateFold (ls : List (List Char)) (d0 : GoTime) : GoTime :=
  ls.foldl (fun acc l =>
    match dateVal l with
    | some v => (parseRFC1123 v).getD acc
    | none => acc) d0

/-- The body text accumulated from a sequence of lines: every line that
matches none of the five patterns, followed by exactly one newline
byte, in order. -/
def bodyOfLines (ls : List (List Char)) : List Char :=
  (ls.filter (fun l => !isMetaLine l)).flatMap (fun l => l ++ ['\n'])

/-- The tag list accumulated from a sequence of lines. -/
def tagsConcat (ls : List (List Char)) : List Tag :=
  ls.flatMap tagsOfLine

/-- The post produced by the scan loop from initial state p on a line
sequence, when no date failure aborts the run. -/
def postAfter (ls : List (List Char)) (p : Post) : Post :=
  { Title := lastWins titleVal ls p.Title
    Description := lastWins descVal ls p.Description
    Date := dateFold ls p.Date
    Body := p.Body ++ bodyOfLines ls
    Author := authorFold ls p.Author
    Signed := p.Signed
    Signature := p.Signature
    Tags := p.Tags ++ tagsConcat ls
    URL := p.URL }

/- ### Re-serialization of the metadata fields

The line forms of the five fields, as the program itself can emit them:
the tag join is the String method of Tags, the author line uses
Combine. -/

/-- Tags.Join: the list of tag names. -/
def tagsJoin (ts : List Tag) : List (List Char) := ts.map Tag.Name

/-- strings.Join with a separator. -/
def joinSepList (sep : List Char) : List (List Char) → List Char
  | [] => []
  | [x] => x
  | x :: y :: zs => x ++ sep ++ joinSepList sep (y :: zs)

/-- The String method of Tags: names joined by comma and space. -/
def tagsString (ts : List Tag) : List Char := joinSepList (strL ", ") (tagsJoin ts)

def authorLineOf (p : Post) : List Char := strL "author: " ++ p.Author.Combine

def titleLineOf (p : Post) : List Char := strL "title: " ++ p.Title

def dateLineOf (p : Post) : List Char := strL "date: " ++ formatRFC1123 p.Date

def tagsLineOf (p : Post) : List Char := strL "tags: " ++ tagsString p.Tags

def descLineOf (p : Post) : List Char := strL "description: " ++ p.Description

/-- An author value in canonical First Last email form. -/
def authorValue (fn ln em : List Char) : List Char :=
  fn ++ ' ' :: (ln ++ ' ' :: '<' :: (em ++ ['>']))

/-- True when no character of the list is regexp whitespace. -/
def noWS (cs : List Char) : Bool := cs.all (fun c => !goWS c)

/-- A frontmatter block with all five metadata lines. -/
def frontBlock (fn ln em t dv tv dsc : List Char) : List (List Char) :=
  [strL "author: " ++ authorValue fn ln em,
   strL "title: " ++ t,
   strL "date: " ++ dv,
   strL "tags: " ++ tv,
   strL "description: " ++ dsc]

/- ### Concrete inputs used in counterexamples and witnesses -/

/-- The concrete valid frontmatter block of the round-trip analysis. -/
def cBlock : List (List Char) :=
  frontBlock (strL "Jane") (strL "Doe") (strL "jane@example.com") (strL "Hi")
    (strL "Mon, 02 Jan 2006 15:04:05 MST") (strL "go, web") (strL "a post")

/-- The post parsed from the concrete block. -/
def cPost : Post :=
  match loadLines (strL "p.md") emptyPost cBlock with
  | .ok q => q
  | _ => emptyPost

/-- The concrete file contents of the body-reconstruction witness. -/
def cContent : List Char := strL "title: Hi\nHello\ndate: Mon, 02 Jan 2006 15:04:05 MST\nWorld\n"

/-- The post parsed from the concrete contents. -/
def cPostBody : Post :=
  match Post.LoadFromFile emptyPost (strL "p.md") (some cContent) with
  | .ok q => q
  | _ => emptyPost

/-- Concrete line sequence with repeated title and tags lines. -/
def cDupLines : List (List Char) :=
  [strL "title: A", strL "tags: x, y", strL "title: B", strL "tags: z"]

/-- The post parsed from the repeated-metadata lines. -/
def cDupPost : Post :=
  match loadLines (strL "d.md") emptyPost cDupLines with
  | .ok q => q
  | _ => emptyPost

/-- A concrete time value for sort witnesses. -/
def mkDay (d : Nat) : GoTime := { year := 2006, month := 1, day := d }

/-- The time value of the canonical RFC 1123 date string of the
witnesses. -/
def cDate : GoTime :=
  { year := 2006, month := 1, day := 2, hour := 15, minute := 4, second := 5,
    zoneName := strL "MST", zoneOffset := 0 }

/- ### Field behaviour of the scan loop -/

lemma startLine_eq (p : Post) (l : List Char) :
    startLine p l =
      { p with
        Author :=
          match authorVal l with
          | some a => p.Author.Parse a
          | none => p.Author,
        Title := (titleVal l).getD p.Title } := by
  simp only [startLine, authorVal, titleVal]
  by_cases hA : authorMatch l <;> by_cases hT : titleMatch l <;> simp [hA, hT]

lemma finishLine_eq (p : Post) (l : List Char) :
    finishLine p l =
      { p with
        Tags := p.Tags ++ tagsOfLine l,
        Description := (descVal l).getD p.Description,
        Body := if isMetaLine l then p.Body else p.Body ++ l ++ ['\n'] } := by
  simp only [finishLine, tagsOfLine, descVal]
  by_cases hTg : tagsMatch l <;> by_cases hDs : descMatch l <;>
    by_cases hM : isMetaLine l <;> simp [hTg, hDs, hM]

lemma loadLines_cons (f : List Char) (p : Post) (l : List Char) (ls : List (List Char)) :
    loadLines f p (l :: ls) =
      match processLine f p l with
      | .fatal m => .fatal m
      | .next q => loadLines f q ls := rfl

lemma processLine_nodate (f : List Char) (p : Post) (l : List Char)
    (hD : dateMatch l = false) :
    processLine f p l = .next (finishLine (startLine p l) l) := by
  simp [processLine, hD]

lemma processLine_date (f : List Char) (p : Post) (l : List Char) (d : GoTime)
    (hD : dateMatch l = true)
    (hp : parseRFC1123 (metaCapture datePat l) = some d) :
    processLine f p l = .next (finishLine { startLine p l with Date := d } l) := by
  simp [processLine, hD, hp]

lemma processLine_datefail (f : List Char) (p : Post) (l : List Char)
    (hD : dateMatch l = true)
    (hp : parseRFC1123 (metaCapture datePat l) = none) :
    processLine f p l = .fatal (strL "error in " ++ f) := by
  simp [processLine, hD, hp]

lemma postAfter_nil (p : Post) : postAfter [] p = p := by
  simp [postAfter, lastWins, dateFold, authorFold, bodyOfLines, tagsConcat]

lemma postAfter_cons_nodate (l : List Char) (ls : List (List Char)) (p : Post)
    (hD : dateMatch l = false) :
    postAfter (l :: ls) p = postAfter ls (finishLine (startLine p l) l) := by
  rw [startLine_eq, finishLine_eq]
  by_cases hM : isMetaLine l <;>
    simp [postAfter, lastWins, dateFold, authorFold, bodyOfLines, tagsConcat,
      dateVal, hD, hM, List.append_assoc]

lemma postAfter_cons_date (l : List Char) (ls : List (List Char)) (p : Post) (d : GoTime)
    (hD : dateMatch l = true)
    (hp : parseRFC1123 (metaCapture datePat l) = some d) :
    postAfter (l :: ls) p = postAfter ls (finishLine { startLine p l with Date := d } l) := by
  rw [startLine_eq, finishLine_eq]
  by_cases hM : isMetaLine l <;>
    simp [postAfter, lastWins, dateFold, authorFold, bodyOfLines, tagsConcat,
      dateVal, hD, hp, hM, List.append_assoc]

/-- Master characterization of the scan loop on a normal return: every
field of the produced post is the corresponding fold over the lines. -/
lemma loadLines_ok_eq (f : List Char) (ls : List (List Char)) (p q : Post)
    (h : loadLines f p ls = .ok q) : q = postAfter ls p := by
  induction ls generalizing p with
  | nil =>
    simp only [loadLines, LoadResult.ok.injEq] at h
    rw [← h, postAfter_nil]
  | cons l ls ih =>
    rw [loadLines_cons] at h
    by_cases hD : dateMatch l
    · cases hp : parseRFC1123 (metaCapture datePat l) with
      | none =>
        rw [processLine_datefail f p l hD hp] at h
        simp at h
      | some d =>
        rw [processLine_date f p l d hD hp] at h
        rw [postAfter_cons_date l ls p d hD hp]
        exact ih _ h
    · rw [processLine_nodate f p l (by simpa using hD)] at h
      rw [postAfter_cons_nodate l ls p (by simpa using hD)]
      exact ih _ h

/- ### Last-occurrence characterizations -/

lemma getLast?_getD_cons {α : Type} (a d : α) (l : List α) :
    ((a :: l).getLast?).getD d = (l.getLast?).getD a := by
  cases l with
  | nil => rfl
  | cons b bs =>
    rw [List.getLast?_cons_cons]
    have hs : ((b :: bs).getLast?).isSome = true :=
      List.getLast?_isSome.mpr (by simp)
    obtain ⟨x, hx⟩ := Option.isSome_iff_exists.mp hs
    rw [hx]
    rfl

lemma lastWins_cons {α : Type} (g : List Char → Option α) (l : List Char)
    (ls : List (List Char)) (a0 : α) :
    lastWins g (l :: ls) a0 = lastWins g ls ((g l).getD a0) := rfl

lemma lastWins_eq_getLast {α : Type} (g : List Char → Option α)
    (ls : List (List Char)) : ∀ a0 : α,
    lastWins g ls a0 = ((ls.filterMap g).getLast?).getD a0 := by
  induction ls with
  | nil => intro a0; rfl
  | cons l ls ih =>
    intro a0
    rw [lastWins_cons, ih, List.filterMap_cons]
    cases hg : g l with
    | none => simp
    | some v => simp [getLast?_getD_cons]

lemma User.Parse_Parse (u : User) (a b : List Char) :
    (u.Parse a).Parse b = u.Parse b := by
  simp only [User.Parse]
  cases userMatch b with
  | none => cases userMatch a <;> rfl
  | some ij => cases ij with
    | mk i j => cases userMatch a <;> rfl

lemma authorFold_cons (l : List Char) (ls : List (List Char)) (u0 : User) :
    authorFold (l :: ls) u0 =
      authorFold ls
        (match authorVal l with
         | some a => u0.Parse a
         | none => u0) := rfl

lemma authorFold_eq_getLast (ls : List (List Char)) : ∀ u0 : User,
    authorFold ls u0 =
      match (ls.filterMap authorVal).getLast? with
      | some a => u0.Parse a
      | none => u0 := by
  induction ls with
  | nil => intro u0; rfl
  | cons l ls ih =>
    intro u0
    rw [authorFold_cons, List.filterMap_cons]
    cases hg : authorVal l with
    | none => rw [ih]
    | some a =>
      rw [ih]
      cases hfm : (ls.filterMap authorVal) with
      | nil => rfl
      | cons b bs =>
        rw [List.getLast?_cons_cons]
        have hs : ((b :: bs).getLast?).isSome = true :=
          List.getLast?_isSome.mpr (by simp)
        obtain ⟨x, hx⟩ := Option.isSome_iff_exists.mp hs
        rw [hx]
        simp [User.Parse_Parse]

lemma dateFold_cons (l : List Char) (ls : List (List Char)) (d0 : GoTime) :
    dateFold (l :: ls) d0 =
      dateFold ls
        (match dateVal l with
         | some v => (parseRFC1123 v).getD d0
         | none => d0) := rfl

lemma dateFold_no_date (ls : List (List Char)) : ∀ d0 : GoTime,
    ls.filterMap dateVal = [] → dateFold ls d0 = d0 := by
  induction ls with
  | nil => intro d0 _; rfl
  | cons l ls ih =>
    intro d0 hnone
    rw [dateFold_cons]
    cases hg : dateVal l with
    | none =>
      simp only []
      exact ih _ (by simpa [List.filterMap_cons, hg] using hnone)
    | some w =>
      exfalso
      simp [List.filterMap_cons, hg] at hnone

lemma dateFold_last (ls : List (List Char)) (v : List Char) (d : GoTime)
    (hd : parseRFC1123 v = some d) : ∀ d0 : GoTime,
    (ls.filterMap dateVal).getLast? = some v → dateFold ls d0 = d := by
  induction ls with
  | nil => intro d0 hv; simp at hv
  | cons l ls ih =>
    intro d0 hv
    rw [dateFold_cons]
    cases hg : dateVal l with
    | none =>
      simp only []
      exact ih _ (by simpa [List.filterMap_cons, hg] using hv)
    | some w =>
      simp only []
      cases hfm : ls.filterMap dateVal with
      | nil =>
        have hwv : w = v := by
          simpa [List.filterMap_cons, hg, hfm] using hv
        rw [dateFold_no_date ls _ hfm, hwv, hd]
        rfl
      | cons b bs =>
        refine ih _ ?_
        rw [hfm]
        have hv2 := hv
        rw [List.filterMap_cons, hg, hfm, List.getLast?_cons_cons] at hv2
        exact hv2

/- ### Fatality of date parse failures -/

/-- Any date line whose value fails to parse aborts the scan loop with
the diagnostic naming the source file. -/
lemma loadLines_bad_date_fatal (f : List Char) (ls : List (List Char)) : ∀ p : Post,
    (∃ l ∈ ls, dateMatch l = true ∧ parseRFC1123 (metaCapture datePat l) = none) →
    loadLines f p ls = .fatal (strL "error in " ++ f) := by
  induction ls with
  | nil => intro p h; simp at h
  | cons l ls ih =>
    intro p h
    rw [loadLines_cons]
    by_cases hD : dateMatch l
    · cases hp : parseRFC1123 (metaCapture datePat l) with
      | none => rw [processLine_datefail f p l hD hp]
      | some d =>
        rw [processLine_date f p l d hD hp]
        refine ih _ ?_
        rcases h with ⟨x, hx, hdx, hpx⟩
        cases List.mem_cons.mp hx with
        | inl he =>
          subst he
          rw [hpx] at hp
          cases hp
        | inr hmem => exact ⟨x, hmem, hdx, hpx⟩
    · rw [processLine_nodate f p l (by simpa using hD)]
      refine ih _ ?_
      rcases h with ⟨x, hx, hdx, hpx⟩
      cases List.mem_cons.mp hx with
      | inl he =>
        subst he
        exact absurd hdx hD
      | inr hmem => exact ⟨x, hmem, hdx, hpx⟩

/-- On a normal return of the scan loop, every date line parsed. -/
lemma loadLines_ok_dates (f : List Char) (ls : List (List Char)) : ∀ p q : Post,
    loadLines f p ls = .ok q →
    ∀ l ∈ ls, dateMatch l = true →
      (parseRFC1123 (metaCapture datePat l)).isSome = true := by
  induction ls with
  | nil => intro p q _ l hl; simp at hl
  | cons l0 ls ih =>
    intro p q h l hl hdl
    rw [loadLines_cons] at h
    by_cases hD : dateMatch l0
    · cases hp : parseRFC1123 (metaCapture datePat l0) with
      | none =>
        rw [processLine_datefail f p l0 hD hp] at h
        cases h
      | some d =>
        rw [processLine_date f p l0 d hD hp] at h
        cases List.mem_cons.mp hl with
        | inl he => subst he; simp [hp]
        | inr hmem => exact ih _ _ h l hmem hdl
    · rw [processLine_nodate f p l0 (by simpa using hD)] at h
      cases List.mem_cons.mp hl with
      | inl he => subst he; exact absurd hdl hD
      | inr hmem => exact ih _ _ h l hmem hdl

/- ### Claim theorems -/

/-- Claim C1: for every post file, the body produced by the frontmatter
parser equals the original file with every line matching one of the
five metadata prefixes removed, and each remaining scanned line
appended followed by exactly one newline byte, in original order. -/
theorem c1_body_reconstruction (f content : List Char) (q : Post)
    (h : Post.LoadFromFile emptyPost f (some content) = LoadResult.ok q) :
    q.Body = bodyOfLines (scanLines content) := by
  have h2 : loadLines f emptyPost (scanLines content) = .ok q := h
  have hq := loadLines_ok_eq f _ emptyPost q h2
  subst hq
  show emptyPost.Body ++ bodyOfLines (scanLines content) = _
  simp [emptyPost]

theorem c1_body_reconstruction_witness :
    Post.LoadFromFile emptyPost (strL "p.md") (some cContent) = LoadResult.ok cPostBody ∧
    cPostBody.Body = bodyOfLines (scanLines cContent) ∧
    cPostBody.Body = strL "Hello\nWorld\n" := by
  have hld : Post.LoadFromFile emptyPost (strL "p.md") (some cContent) =
      LoadResult.ok cPostBody := by rfl
  exact ⟨hld, c1_body_reconstruction _ _ _ hld, by decide⟩

/-- Claim C7: a post file containing a date line whose value does not
parse under the fixed RFC 1123 layout makes the parser abort the
process, and the diagnostic carries the offending source path as a
suffix; the post never receives a zero date from such a line. -/
theorem c7_date_failure_fatal (f content : List Char)
    (h : ∃ l ∈ scanLines content, dateMatch l = true ∧
      parseRFC1123 (metaCapture datePat l) = none) :
    Post.LoadFromFile emptyPost f (some content) =
      LoadResult.fatal (strL "error in " ++ f) ∧
    f <:+ strL "error in " ++ f :=
  ⟨loadLines_bad_date_fatal f (scanLines content) emptyPost h,
   List.suffix_append _ _⟩

theorem c7_date_failure_fatal_witness :
    (∃ l ∈ scanLines (strL "date: nope\n"), dateMatch l = true ∧
      parseRFC1123 (metaCapture datePat l) = none) ∧
    Post.LoadFromFile emptyPost (strL "x.md") (some (strL "date: nope\n")) =
      LoadResult.fatal (strL "error in x.md") := by
  have hex : ∃ l ∈ scanLines (strL "date: nope\n"), dateMatch l = true ∧
      parseRFC1123 (metaCapture datePat l) = none := by decide
  exact ⟨hex, (c7_date_failure_fatal (strL "x.md") (strL "date: nope\n") hex).1⟩

/-- Claim C8: sorting a post collection by descending date is idempotent
on a collection that is already strictly sorted most recent first. -/
theorem c8_sort_idempotent (l : List Post)
    (h : List.Pairwise (fun a b => postLess a b = true) l) :
    sortPosts l = l := by
  induction l with
  | nil => rfl
  | cons a l ih =>
    rw [List.pairwise_cons] at h
    have hs : sortPosts (a :: l) = insertPost a (sortPosts l) := rfl
    rw [hs, ih h.2]
    cases l with
    | nil => rfl
    | cons b bs =>
      have hab : postLess a b = true := h.1 b (by simp)
      simp [insertPost, hab]

theorem c8_sort_idempotent_witness :
    List.Pairwise (fun a b => postLess a b = true)
      [{ emptyPost with Date := mkDay 3 }, { emptyPost with Date := mkDay 2 }] ∧
    sortPosts [{ emptyPost with Date := mkDay 3 }, { emptyPost with Date := mkDay 2 }] =
      [{ emptyPost with Date := mkDay 3 }, { emptyPost with Date := mkDay 2 }] := by
  have hp : List.Pairwise (fun a b => postLess a b = true)
      [{ emptyPost with Date := mkDay 3 }, { emptyPost with Date := mkDay 2 }] := by
    decide
  exact ⟨hp, c8_sort_idempotent _ hp⟩

/-- Claim C10: on a file with repeated metadata prefixes the parser
keeps, for author, title, date and description, the value of the last
such line, while every tags line appends its trimmed names, so tags
accumulate in file order. -/
theorem c10_duplicate_metadata (f : List Char) (ls : List (List Char)) (q : Post)
    (h : loadLines f emptyPost ls = LoadResult.ok q) :
    q.Title = ((ls.filterMap titleVal).getLast?).getD [] ∧
    q.Description = ((ls.filterMap descVal).getLast?).getD [] ∧
    (∀ a, (ls.filterMap authorVal).getLast? = some a → q.Author = User.Parse {} a) ∧
    (∀ v, (ls.filterMap dateVal).getLast? = some v → parseRFC1123 v = some q.Date) ∧
    q.Tags = tagsConcat ls := by
  have hq := loadLines_ok_eq f ls emptyPost q h
  subst hq
  refine ⟨?_, ?_, ?_, ?_, ?_⟩
  · show lastWins titleVal ls emptyPost.Title = _
    rw [lastWins_eq_getLast]
    rfl
  · show lastWins descVal ls emptyPost.Description = _
    rw [lastWins_eq_getLast]
    rfl
  · intro a ha
    show authorFold ls emptyPost.Author = _
    rw [authorFold_eq_getLast, ha]
    rfl
  · intro v hv
    obtain ⟨l, hl, hvl⟩ :=
      List.mem_filterMap.mp (List.mem_of_mem_getLast? (Option.mem_def.mpr hv))
    by_cases hdm : dateMatch l
    · have hcap : metaCapture datePat l = v := by simpa [dateVal, hdm] using hvl
      have hsome := loadLines_ok_dates f ls emptyPost _ h l hl hdm
      rw [hcap] at hsome
      obtain ⟨d, hd⟩ := Option.isSome_iff_exists.mp hsome
      show parseRFC1123 v = some (dateFold ls emptyPost.Date)
      rw [dateFold_last ls v d hd emptyPost.Date hv, hd]
    · simp [dateVal, hdm] at hvl
  · show emptyPost.Tags ++ tagsConcat ls = tagsConcat ls
    simp [emptyPost]

theorem c10_duplicate_metadata_witness :
    loadLines (strL "d.md") emptyPost cDupLines = LoadResult.ok cDupPost ∧
    cDupPost.Title = strL "B" ∧
    cDupPost.Tags = tagsConcat cDupLines ∧
    (cDupPost.Tags.map Tag.Name) = [strL "x", strL "y", strL "z"] := by
  have hld : loadLines (strL "d.md") emptyPost cDupLines = LoadResult.ok cDupPost := by rfl
  have hc := c10_duplicate_metadata (strL "d.md") cDupLines cDupPost hld
  refine ⟨hld, ?_, hc.2.2.2.2, by decide⟩
  rw [hc.1]
  decide

/-- Claim C3 counterexample: the author line parser on a non-matching
input does not yield empty fields; every field receives the whole input
line, since ReplaceAllString returns its input unchanged when the
pattern does not match. -/
theorem c3_counterexample :
    userLineMatches (strL "Madonna") = false ∧
    (User.Parse {} (strL "Madonna")).FName = strL "Madonna" ∧
    (User.Parse {} (strL "Madonna")).FName ≠ [] := by decide

/-- Claim C3 as amended: on input not matching the author line pattern,
Parse silently sets first name, last name and email all to the whole
input string (no error is raised). -/
theorem c3_nonmatching_fields_input (u : User) (s : List Char)
    (h : userLineMatches s = false) :
    (u.Parse s).FName = s ∧ (u.Parse s).LName = s ∧ (u.Parse s).Email = s := by
  simp only [userLineMatches] at h
  simp only [User.Parse]
  cases hm : userMatch s with
  | none => simp
  | some ij => rw [hm] at h; simp at h

theorem c3_nonmatching_fields_input_witness :
    userLineMatches (strL "Madonna") = false ∧
    (User.Parse {} (strL "Madonna")).FName = strL "Madonna" :=
  ⟨by decide, (c3_nonmatching_fields_input {} (strL "Madonna") (by decide)).1⟩

/-- Claim C4 counterexample: with both bounds at most the collection
length but start beyond end, the lop helper does not return a slice; the
slice expression is a bounds panic. -/
theorem c4_counterexample :
    ¬((([emptyPost] : List Post).length : Int) < 0) ∧ lop [emptyPost] 1 0 = none := by
  constructor
  · decide
  · decide

/-- Claim C4 as amended: when the requested upper bound exceeds the
collection length, lop returns the whole collection unchanged; when the
upper bound is within the collection and the bounds are ordered and
nonnegative, it returns the requested slice with no out-of-bounds
access; other bounds (start negative or start beyond end) still panic
in the slice expression. -/
theorem c4_lop_clamped (p : List Post) (s e : Int) :
    (((p.length : Int)) < e → lop p s e = some p) ∧
    (e ≤ (p.length : Int) → 0 ≤ s → s ≤ e →
      lop p s e = some ((p.take e.toNat).drop s.toNat)) := by
  constructor
  · intro hl
    simp [lop, hl]
  · intro h1 h2 h3
    have hnl : ¬((p.length : Int) < e) := by omega
    simp [lop, goSlice, hnl, h1, h2, h3]

theorem c4_lop_clamped_witness :
    lop [emptyPost] 0 2 = some [emptyPost] ∧ lop [emptyPost] 0 1 = some [emptyPost] := by
  have h1 := (c4_lop_clamped [emptyPost] 0 2).1 (by decide)
  have h2 := (c4_lop_clamped [emptyPost] 0 1).2 (by decide) (by decide) (by decide)
  rw [h2] at *
  exact ⟨h1, by decide⟩

/-- Claim C5 counterexample: with a single post the archive page receives
the whole collection, not the empty collection left after dropping the
five most recent. -/
theorem c5_counterexample :
    archivePosts [emptyPost] = [emptyPost] ∧ List.drop 5 [emptyPost] = [] := by
  constructor
  · decide
  · decide

/-- Claim C5 as amended: with at least five posts the archive receives
the sorted collection with its first five elements dropped (so exactly
one post when there are six); with fewer than five posts it receives
the whole collection, not the empty one. -/
theorem c5_archive_selection (posts : List Post) :
    (5 ≤ posts.length → archivePosts posts = posts.drop 5) ∧
    (posts.length < 5 → archivePosts posts = posts) ∧
    (posts.length = 6 → (archivePosts posts).length = 1) := by
  refine ⟨?_, ?_, ?_⟩
  · intro h5
    simp [archivePosts, Nat.not_lt.mpr h5]
  · intro h5
    simp [archivePosts, h5]
  · intro h6
    have h5 : ¬(posts.length < 5) := by omega
    simp [archivePosts, h5, h6]

theorem c5_archive_selection_witness :
    archivePosts (List.replicate 6 emptyPost) = (List.replicate 6 emptyPost).drop 5 ∧
    (archivePosts (List.replicate 6 emptyPost)).length = 1 ∧
    archivePosts [emptyPost] = [emptyPost] :=
  ⟨(c5_archive_selection _).1 (by decide),
   (c5_archive_selection _).2.2 (by decide),
   (c5_archive_selection _).2.1 (by decide)⟩

/-- Claim C6: the code contradicts the stated contract.  renderPost never
assigns its err variable, the result of LoadFromFile is discarded, so a
file that cannot be opened does not abort the program: renderPost
returns a normal, empty post whose body went through the markdown
converter and whose address was still derived, and the page is rendered.
This theorem evaluates the code at the failing input. -/
theorem c6_open_error_swallowed (md : List Char → List Char) (f fname : List Char) :
    renderPost md f fname none =
      RenderResult.ok { emptyPost with Body := md [], URL := '/' :: md2html fname } := rfl

/-- Claim C9 counterexample: an invocation with two entries in the
argument vector (one positional argument, fewer than the required
three) does not print the message and exit with code one; the length
check only catches the empty case and the later indexing panics. -/
theorem c9_counterexample :
    argsCheck [strL "boring", strL "src"] = ArgOutcome.crash ∧
    ArgOutcome.crash ≠ ArgOutcome.exitOne := by
  constructor
  · decide
  · decide

/-- Claim C9 as amended: with no arguments at all the program prints the
message and exits with code one; with one or two positional arguments
the argument check passes and the positional indexing panics; with
three or more the three directories are read. -/
theorem c9_args_check (args : List (List Char)) :
    (args.length < 2 → argsCheck args = ArgOutcome.exitOne) ∧
    (args.length = 2 ∨ args.length = 3 → argsCheck args = ArgOutcome.crash) ∧
    (4 ≤ args.length →
      argsCheck args = ArgOutcome.proceed (args.getD 1 []) (args.getD 2 []) (args.getD 3 [])) := by
  refine ⟨?_, ?_, ?_⟩
  · intro h
    simp [argsCheck, h]
  · intro h
    cases h with
    | inl h2 =>
      obtain ⟨a, b, rfl⟩ := List.length_eq_two.mp h2
      rfl
    | inr h3 =>
      obtain ⟨a, b, c, rfl⟩ := List.length_eq_three.mp h3
      rfl
  · intro h
    rcases args with _ | ⟨a, args⟩
    · simp at h
    rcases args with _ | ⟨b, args⟩
    · simp at h
    rcases args with _ | ⟨c, args⟩
    · simp at h
    rcases args with _ | ⟨d, args⟩
    · simp at h
    have hlen : ¬((a :: b :: c :: d :: args).length < 2) := by
      simp
    simp [argsCheck, hlen]

theorem c9_args_check_witness :
    argsCheck [strL "boring"] = ArgOutcome.exitOne ∧
    argsCheck [strL "boring", strL "s", strL "t"] = ArgOutcome.crash ∧
    argsCheck [strL "boring", strL "s", strL "t", strL "d"] =
      ArgOutcome.proceed (strL "s") (strL "t") (strL "d") := by
  refine ⟨(c9_args_check _).1 (by decide), (c9_args_check _).2.1 (Or.inr (by decide)), ?_⟩
  have h3 := (c9_args_check [strL "boring", strL "s", strL "t", strL "d"]).2.2 (by decide)
  rw [h3]
  rfl

/-- Claim C2 counterexample: parsing a concrete valid frontmatter block
and re-serializing the author via Combine does not reproduce the author
line: Combine omits the email. -/
theorem c2_counterexample :
    loadLines (strL "p.md") emptyPost cBlock = LoadResult.ok cPost ∧
    authorLineOf cPost = strL "author: Jane Doe" ∧
    authorLineOf cPost ≠ strL "author: Jane Doe <jane@example.com>" := by
  refine ⟨rfl, by decide, by decide⟩

/- ### Correctness of the author line matcher on canonical values -/

lemma findMaxBelow_eq_none (p : Nat → Bool) (n : Nat)
    (h : ∀ m, m < n → p m = false) : findMaxBelow p n = none := by
  induction n with
  | zero => rfl
  | succ k ih =>
    rw [findMaxBelow, h k (by omega), if_neg (by simp)]
    exact ih (fun m hm => h m (by omega))

lemma findMaxBelow_eq_some (p : Nat → Bool) (n k : Nat) (hk : k < n)
    (hpk : p k = true) (hmax : ∀ m, k < m → m < n → p m = false) :
    findMaxBelow p n = some k := by
  induction n with
  | zero => omega
  | succ j ih =>
    by_cases hj : k = j
    · subst hj
      rw [findMaxBelow, hpk, if_pos rfl]
    · have hpj : p j = false := hmax j (by omega) (by omega)
      rw [findMaxBelow, hpj, if_neg (by simp)]
      exact ih (by omega) (fun m h1 h2 => hmax m h1 (by omega))

lemma noWS_noNL (x : List Char) (h : noWS x = true) : noNL x = true := by
  simp only [noWS, List.all_eq_true] at h
  simp only [noNL, List.all_eq_true, decide_eq_true_eq]
  intro c hc
  have h2 := h c hc
  simp only [Bool.not_eq_true'] at h2
  simp only [goWS, Bool.or_eq_false_iff, decide_eq_false_iff_not] at h2
  exact h2.1.1.1.2

lemma noWS_getD_false (x : List Char) (h : noWS x = true) (k : Nat) (hk : k < x.length) :
    goWS (x.getD k ' ') = false := by
  simp only [noWS, List.all_eq_true] at h
  rw [List.getD_eq_getElem x ' ' hk]
  have := h _ (List.getElem_mem hk)
  simpa using this

lemma authorValue_length (fn ln em : List Char) :
    (authorValue fn ln em).length = fn.length + ln.length + em.length + 4 := by
  simp [authorValue]
  omega

lemma av_getD_lt (fn ln em : List Char) (k : Nat) (hk : k < fn.length) :
    (authorValue fn ln em).getD k ' ' = fn.getD k ' ' :=
  List.getD_append _ _ _ _ hk

lemma av_getD_at_F (fn ln em : List Char) :
    (authorValue fn ln em).getD fn.length ' ' = ' ' := by
  unfold authorValue
  rw [List.getD_append_right _ _ _ _ (le_refl _)]
  simp

lemma av_getD_in_ln (fn ln em : List Char) (k : Nat) (h1 : fn.length < k)
    (h2 : k < fn.length + 1 + ln.length) :
    (authorValue fn ln em).getD k ' ' = ln.getD (k - fn.length - 1) ' ' := by
  unfold authorValue
  rw [List.getD_append_right _ _ _ _ (by omega)]
  have he : k - fn.length = (k - fn.length - 1) + 1 := by omega
  rw [he, List.getD_cons_succ]
  exact List.getD_append _ _ _ _ (by omega)

lemma av_getD_at_J (fn ln em : List Char) :
    (authorValue fn ln em).getD (fn.length + 1 + ln.length) ' ' = ' ' := by
  unfold authorValue
  rw [List.getD_append_right _ _ _ _ (by omega)]
  have he : fn.length + 1 + ln.length - fn.length = ln.length + 1 := by omega
  rw [he, List.getD_cons_succ]
  rw [List.getD_append_right _ _ _ _ (le_refl _)]
  simp

lemma av_getD_at_J1 (fn ln em : List Char) :
    (authorValue fn ln em).getD (fn.length + 1 + ln.length + 1) ' ' = '<' := by
  unfold authorValue
  rw [List.getD_append_right _ _ _ _ (by omega)]
  have he : fn.length + 1 + ln.length + 1 - fn.length = ln.length + 2 := by omega
  rw [he, List.getD_cons_succ]
  rw [List.getD_append_right _ _ _ _ (by omega)]
  have he2 : ln.length + 1 - ln.length = 1 := by omega
  rw [he2]
  simp

lemma av_getD_in_em (fn ln em : List Char) (k : Nat)
    (h1 : fn.length + 1 + ln.length + 1 < k)
    (h2 : k < (authorValue fn ln em).length - 1) :
    (authorValue fn ln em).getD k ' ' = em.getD (k - fn.length - ln.length - 3) ' ' := by
  rw [authorValue_length] at h2
  obtain ⟨m, rfl⟩ : ∃ m, k = fn.length + ln.length + 3 + m :=
    ⟨k - fn.length - ln.length - 3, by omega⟩
  have hm : m < em.length := by omega
  have hidx : fn.length + ln.length + 3 + m - fn.length - ln.length - 3 = m := by omega
  rw [hidx]
  unfold authorValue
  rw [List.getD_append_right _ _ _ _ (by omega)]
  have he : fn.length + ln.length + 3 + m - fn.length = (ln.length + 2 + m) + 1 := by omega
  rw [he, List.getD_cons_succ]
  rw [List.getD_append_right _ _ _ _ (by omega)]
  have he2 : ln.length + 2 + m - ln.length = (m + 1) + 1 := by omega
  rw [he2, List.getD_cons_succ, List.getD_cons_succ]
  exact List.getD_append _ _ _ _ hm

lemma av_getD_last (fn ln em : List Char) :
    (authorValue fn ln em).getD ((authorValue fn ln em).length - 1) ' ' = '>' := by
  rw [authorValue_length]
  unfold authorValue
  rw [List.getD_append_right _ _ _ _ (by omega)]
  have he : fn.length + ln.length + em.length + 4 - 1 - fn.length = (ln.length + em.length + 2) + 1 := by
    omega
  rw [he, List.getD_cons_succ]
  rw [List.getD_append_right _ _ _ _ (by omega)]
  have he2 : ln.length + em.length + 2 - ln.length = em.length + 2 := by omega
  rw [he2, List.getD_cons_succ, List.getD_cons_succ]
  rw [List.getD_append_right _ _ _ _ (le_refl _)]
  simp

lemma av_take_fn (fn ln em : List Char) :
    (authorValue fn ln em).take fn.length = fn := by
  unfold authorValue
  exact List.take_left _ _

lemma av_seg_ln (fn ln em : List Char) :
    seg (authorValue fn ln em) (fn.length + 1) (fn.length + 1 + ln.length) = ln := by
  unfold seg authorValue
  have he : fn.length + 1 + ln.length = fn.length + (ln.length + 1) := by omega
  rw [he, List.take_append, List.take_succ_cons, List.take_left]
  have he2 : fn ++ ' ' :: ln = (fn ++ [' ']) ++ ln := by simp
  rw [he2]
  have he3 : fn.length + 1 = (fn ++ [' ']).length := by simp
  rw [he3, List.drop_left]

lemma av_seg_em (fn ln em : List Char) :
    seg (authorValue fn ln em) (fn.length + 1 + ln.length + 2)
      ((authorValue fn ln em).length - 1) = em := by
  unfold seg
  have hcs : authorValue fn ln em = (fn ++ ' ' :: (ln ++ [' ', '<'])) ++ (em ++ ['>']) := by
    simp [authorValue]
  have hpre : (fn ++ ' ' :: (ln ++ [' ', '<'])).length = fn.length + ln.length + 3 := by
    simp
    omega
  rw [authorValue_length, hcs]
  have he : fn.length + ln.length + em.length + 4 - 1 =
      (fn ++ ' ' :: (ln ++ [' ', '<'])).length + em.length := by
    rw [hpre]
    omega
  rw [he, List.take_append, List.take_left]
  have he2 : fn.length + 1 + ln.length + 2 = (fn ++ ' ' :: (ln ++ [' ', '<'])).length := by
    rw [hpre]
    omega
  rw [he2, List.drop_left]

lemma userPred_av_true (fn ln em : List Char)
    (hf : noWS fn = true) (hl : noWS ln = true) (he : noWS em = true) :
    userPred (authorValue fn ln em) fn.length (fn.length + 1 + ln.length) = true := by
  rw [userPred, av_getD_at_F, av_getD_at_J, av_getD_at_J1, av_getD_last, av_take_fn,
    av_seg_ln, av_seg_em]
  simp [authorValue_length, noWS_noNL fn hf, noWS_noNL ln hl, noWS_noNL em he, goWS]
  omega

lemma userPred_av_false_j (fn ln em : List Char) (hem : noWS em = true) (i j : Nat)
    (hj : fn.length + 1 + ln.length < j) :
    userPred (authorValue fn ln em) i j = false := by
  by_contra hc
  rw [Bool.not_eq_false] at hc
  simp only [userPred, Bool.and_eq_true, decide_eq_true_eq] at hc
  obtain ⟨⟨⟨⟨⟨⟨⟨⟨h1, h2⟩, h3⟩, h4⟩, h5⟩, h6⟩, h7⟩, h8⟩, _⟩ := hc
  have hn := authorValue_length fn ln em
  rw [hn] at h2
  by_cases hJ1 : j = fn.length + 1 + ln.length + 1
  · subst hJ1
    rw [av_getD_at_J1] at h4
    simp [goWS] at h4
  · have hgt : fn.length + 1 + ln.length + 1 < j := by omega
    have hlt : j < (authorValue fn ln em).length - 1 := by rw [hn]; omega
    rw [av_getD_in_em fn ln em j hgt hlt] at h4
    rw [noWS_getD_false em hem _ (by omega)] at h4
    cases h4

lemma userPred_av_false_highi (fn ln em : List Char)
    (hl : noWS ln = true) (hem : noWS em = true) (i j : Nat)
    (hi : fn.length < i) :
    userPred (authorValue fn ln em) i j = false := by
  by_contra hc
  rw [Bool.not_eq_false] at hc
  by_cases hj : fn.length + 1 + ln.length < j
  · rw [userPred_av_false_j fn ln em hem i j hj] at hc
    cases hc
  · simp only [userPred, Bool.and_eq_true, decide_eq_true_eq] at hc
    obtain ⟨⟨⟨⟨⟨⟨⟨⟨h1, h2⟩, h3⟩, h4⟩, h5⟩, h6⟩, h7⟩, h8⟩, _⟩ := hc
    have hiJ : i < fn.length + 1 + ln.length := by omega
    rw [av_getD_in_ln fn ln em i hi hiJ] at h3
    rw [noWS_getD_false ln hl _ (by omega)] at h3
    cases h3

lemma userMatch_av (fn ln em : List Char)
    (hf : noWS fn = true) (hl : noWS ln = true) (hem : noWS em = true) :
    userMatch (authorValue fn ln em) =
      some (fn.length, fn.length + 1 + ln.length) := by
  have hn := authorValue_length fn ln em
  have hinner : findMaxBelow (fun j => userPred (authorValue fn ln em) fn.length j)
      (authorValue fn ln em).length = some (fn.length + 1 + ln.length) := by
    apply findMaxBelow_eq_some
    · rw [hn]; omega
    · exact userPred_av_true fn ln em hf hl hem
    · intro m hm1 _
      exact userPred_av_false_j fn ln em hem fn.length m hm1
  have houter : findMaxBelow
      (fun i => (findMaxBelow (fun j => userPred (authorValue fn ln em) i j)
        (authorValue fn ln em).length).isSome)
      (authorValue fn ln em).length = some fn.length := by
    apply findMaxBelow_eq_some
    · rw [hn]; omega
    · rw [hinner]; rfl
    · intro m hm1 _
      rw [findMaxBelow_eq_none]
      · rfl
      · intro j _
        exact userPred_av_false_highi fn ln em hl hem m j hm1
  simp only [userMatch, houter, hinner]

lemma Parse_authorValue (u : User) (fn ln em : List Char)
    (hf : noWS fn = true) (hl : noWS ln = true) (hem : noWS em = true) :
    u.Parse (authorValue fn ln em) = { u with FName := fn, LName := ln, Email := em } := by
  simp only [User.Parse, userMatch_av fn ln em hf hl hem]
  rw [av_take_fn, av_seg_ln, av_seg_em]

/- ### Splitting a canonical comma-and-space join -/

lemma splitAux_no_sep (sep : Char) : ∀ (a rest acc : List Char),
    a.contains sep = false →
    splitAux sep (a ++ rest) acc = splitAux sep rest (a.reverse ++ acc) := by
  intro a
  induction a with
  | nil => intro rest acc _; simp
  | cons c a ih =>
    intro rest acc hna
    simp only [List.contains_cons, Bool.or_eq_false_iff] at hna
    have hc : ¬(c = sep) := by
      intro he
      rw [he] at hna
      simp at hna
    rw [List.cons_append, splitAux, if_neg hc, ih rest (c :: acc) hna.2]
    simp

lemma splitOnChar_no_sep (sep : Char) (a : List Char) (h : a.contains sep = false) :
    splitOnChar sep a = [a] := by
  have hs := splitAux_no_sep sep a [] [] h
  rw [List.append_nil] at hs
  rw [splitOnChar, hs, splitAux]
  simp

lemma joinSepList_cons_cons (sep : List Char) (x y : List Char) (zs : List (List Char)) :
    joinSepList sep (x :: y :: zs) = x ++ sep ++ joinSepList sep (y :: zs) := rfl

lemma splitOnChar_joinSep : ∀ (rest : List (List Char)) (nm : List Char),
    nm.contains ',' = false → (∀ x ∈ rest, x.contains ',' = false) →
    splitOnChar ',' (joinSepList (strL ", ") (nm :: rest)) =
      nm :: rest.map (fun x => ' ' :: x) := by
  intro rest
  induction rest with
  | nil =>
    intro nm h1 _
    simp only [List.map_nil]
    exact splitOnChar_no_sep ',' nm h1
  | cons r rr ih =>
    intro nm h1 h2
    rw [joinSepList_cons_cons]
    have hflat : nm ++ strL ", " ++ joinSepList (strL ", ") (r :: rr) =
        nm ++ (',' :: (' ' :: joinSepList (strL ", ") (r :: rr))) := by
      simp [strL]
    rw [hflat, splitOnChar, splitAux_no_sep ',' nm _ [] h1, splitAux, if_pos rfl]
    have hX : (' ' :: joinSepList (strL ", ") (r :: rr)) =
        joinSepList (strL ", ") ((' ' :: r) :: rr) := by
      cases rr with
      | nil => rfl
      | cons s ss => rfl
    have hr : (' ' :: r).contains ',' = false := by
      simp only [List.contains_cons, Bool.or_eq_false_iff]
      refine ⟨by decide, h2 r (by simp)⟩
    have hrr : ∀ x ∈ rr, x.contains ',' = false := fun x hx => h2 x (by simp [hx])
    have := ih (' ' :: r) hr hrr
    rw [splitOnChar] at this
    rw [hX, this]
    simp

lemma TrimSpace_cons_space (x : List Char) : TrimSpace (' ' :: x) = TrimSpace x := by
  simp [TrimSpace, List.dropWhile_cons, goSpace]

lemma splitTags_joinSep (names : List (List Char)) (hne : names ≠ [])
    (h : ∀ nm ∈ names, nm.contains ',' = false ∧ TrimSpace nm = nm) :
    splitTags (joinSepList (strL ", ") names) =
      names.map (fun nm => { Name := nm : Tag }) := by
  obtain ⟨nm, rest, rfl⟩ := List.exists_cons_of_ne_nil hne
  rw [splitTags, splitOnChar_joinSep rest nm (h nm (by simp)).1
    (fun x hx => (h x (by simp [hx])).1)]
  simp only [List.map_cons, List.map_map]
  congr 1
  · rw [(h nm (by simp)).2]
  · apply List.map_congr_left
    intro x hx
    simp only [Function.comp_apply]
    rw [TrimSpace_cons_space, (h x (by simp [hx])).2]

lemma tagsString_mkTags (names : List (List Char)) :
    tagsString (names.map (fun nm => { Name := nm : Tag })) =
      joinSepList (strL ", ") names := by
  rw [tagsString, tagsJoin, List.map_map]
  have hcomp : (Tag.Name ∘ fun nm => ({ Name := nm } : Tag)) = id := rfl
  rw [hcomp, List.map_id]

lemma noNL_joinSep (names : List (List Char)) (h : ∀ nm ∈ names, noNL nm = true) :
    noNL (joinSepList (strL ", ") names) = true := by
  induction names with
  | nil => rfl
  | cons nm rest ih =>
    cases rest with
    | nil => exact h nm (by simp)
    | cons r rr =>
      rw [joinSepList_cons_cons]
      have h1 := h nm (by simp)
      have h2 := ih (fun x hx => h x (by simp [hx]))
      simp only [noNL, List.all_append, Bool.and_eq_true] at h1 h2 ⊢
      exact ⟨⟨h1, by decide⟩, h2⟩

/- ### Matcher values on the five canonical line forms -/

lemma matchers_author_line (x : List Char) :
    authorMatch (strL "author: " ++ x) = noNL x ∧
    titleMatch (strL "author: " ++ x) = false ∧
    dateMatch (strL "author: " ++ x) = false ∧
    tagsMatch (strL "author: " ++ x) = false ∧
    descMatch (strL "author: " ++ x) = false ∧
    metaCapture authorPat (strL "author: " ++ x) = x :=
  ⟨rfl, rfl, rfl, rfl, rfl, rfl⟩

lemma matchers_title_line (x : List Char) :
    authorMatch (strL "title: " ++ x) = false ∧
    titleMatch (strL "title: " ++ x) = noNL x ∧
    dateMatch (strL "title: " ++ x) = false ∧
    tagsMatch (strL "title: " ++ x) = false ∧
    descMatch (strL "title: " ++ x) = false ∧
    metaCapture titlePat (strL "title: " ++ x) = x :=
  ⟨rfl, rfl, rfl, rfl, rfl, rfl⟩

lemma matchers_date_line (x : List Char) :
    authorMatch (strL "date: " ++ x) = false ∧
    titleMatch (strL "date: " ++ x) = false ∧
    dateMatch (strL "date: " ++ x) = noNL x ∧
    tagsMatch (strL "date: " ++ x) = false ∧
    descMatch (strL "date: " ++ x) = false ∧
    metaCapture datePat (strL "date: " ++ x) = x :=
  ⟨rfl, rfl, rfl, rfl, rfl, rfl⟩

lemma matchers_tags_line (x : List Char) :
    authorMatch (strL "tags: " ++ x) = false ∧
    titleMatch (strL "tags: " ++ x) = false ∧
    dateMatch (strL "tags: " ++ x) = false ∧
    tagsMatch (strL "tags: " ++ x) = noNL x ∧
    descMatch (strL "tags: " ++ x) = false ∧
    metaCapture tagsPat (strL "tags: " ++ x) = x :=
  ⟨rfl, rfl, rfl, rfl, rfl, rfl⟩

lemma matchers_desc_line (x : List Char) :
    authorMatch (strL "description: " ++ x) = false ∧
    titleMatch (strL "description: " ++ x) = false ∧
    dateMatch (strL "description: " ++ x) = false ∧
    tagsMatch (strL "description: " ++ x) = false ∧
    descMatch (strL "description: " ++ x) = noNL x ∧
    metaCapture descPat (strL "description: " ++ x) = x :=
  ⟨rfl, rfl, rfl, rfl, rfl, rfl⟩

lemma noNL_mem (x : List Char) (h : noNL x = true) (c : Char) (hc : c ∈ x) :
    c ≠ '\n' := by
  simp only [noNL, List.all_eq_true, decide_eq_true_eq] at h
  exact h c hc

lemma noNL_authorValue (fn ln em : List Char)
    (hf : noWS fn = true) (hl : noWS ln = true) (hem : noWS em = true) :
    noNL (authorValue fn ln em) = true := by
  simp only [noNL, List.all_eq_true, decide_eq_true_eq]
  intro c hc
  simp only [authorValue, List.mem_append, List.mem_cons, List.not_mem_nil, or_false] at hc
  rcases hc with hm | rfl | hm | rfl | rfl | hm | rfl
  · exact noNL_mem fn (noWS_noNL fn hf) c hm
  · decide
  · exact noNL_mem ln (noWS_noNL ln hl) c hm
  · decide
  · decide
  · exact noNL_mem em (noWS_noNL em hem) c hm
  · decide

lemma postAfter_Title (ls : List (List Char)) (p : Post) :
    (postAfter ls p).Title = lastWins titleVal ls p.Title := rfl

lemma postAfter_Description (ls : List (List Char)) (p : Post) :
    (postAfter ls p).Description = lastWins descVal ls p.Description := rfl

lemma postAfter_Date (ls : List (List Char)) (p : Post) :
    (postAfter ls p).Date = dateFold ls p.Date := rfl

lemma postAfter_Tags (ls : List (List Char)) (p : Post) :
    (postAfter ls p).Tags = p.Tags ++ tagsConcat ls := rfl

lemma postAfter_Author (ls : List (List Char)) (p : Post) :
    (postAfter ls p).Author = authorFold ls p.Author := rfl

/-- Claim C2 as amended: parsing a canonical frontmatter block and then
re-serializing the five metadata fields reproduces the title, date,
tags and description lines exactly (the tags line because its names
were already trimmed; in general re-serialization trims them), while
the author line is reproduced without the email part: Combine emits
only first and last name, so the email is dropped. -/
theorem c2_roundtrip (f t dsc dv fn ln em : List Char) (dd : GoTime)
    (names : List (List Char)) (q : Post)
    (hf : noWS fn = true) (hl : noWS ln = true) (hem : noWS em = true)
    (ht : noNL t = true) (hdsc : noNL dsc = true)
    (hparse : parseRFC1123 dv = some dd) (hfmt : formatRFC1123 dd = dv)
    (hne : names ≠ [])
    (hnames : ∀ nm ∈ names, nm.contains ',' = false ∧ TrimSpace nm = nm ∧ noNL nm = true)
    (hdvn : noNL dv = true)
    (h : loadLines f emptyPost
      (frontBlock fn ln em t dv (joinSepList (strL ", ") names) dsc) =
        LoadResult.ok q) :
    titleLineOf q = strL "title: " ++ t ∧
    descLineOf q = strL "description: " ++ dsc ∧
    dateLineOf q = strL "date: " ++ dv ∧
    tagsLineOf q = strL "tags: " ++ joinSepList (strL ", ") names ∧
    authorLineOf q = strL "author: " ++ (fn ++ [' '] ++ ln) := by
  have hq := loadLines_ok_eq _ _ _ _ h
  subst hq
  have hnlav := noNL_authorValue fn ln em hf hl hem
  have hnj : noNL (joinSepList (strL ", ") names) = true :=
    noNL_joinSep names (fun nm hm => (hnames nm hm).2.2)
  have mA := matchers_author_line (authorValue fn ln em)
  have mT := matchers_title_line t
  have mD := matchers_date_line dv
  have mG := matchers_tags_line (joinSepList (strL ", ") names)
  have mS := matchers_desc_line dsc
  have tA : titleVal (strL "author: " ++ authorValue fn ln em) = none := by
    simp [titleVal, mA.2.1]
  have tT : titleVal (strL "title: " ++ t) = some t := by
    simp [titleVal, mT.2.1, ht, mT.2.2.2.2.2]
  have tD : titleVal (strL "date: " ++ dv) = none := by
    simp [titleVal, mD.2.1]
  have tG : titleVal (strL "tags: " ++ joinSepList (strL ", ") names) = none := by
    simp [titleVal, mG.2.1]
  have tS : titleVal (strL "description: " ++ dsc) = none := by
    simp [titleVal, mS.2.1]
  have sA : descVal (strL "author: " ++ authorValue fn ln em) = none := by
    simp [descVal, mA.2.2.2.2.1]
  have sT : descVal (strL "title: " ++ t) = none := by
    simp [descVal, mT.2.2.2.2.1]
  have sD : descVal (strL "date: " ++ dv) = none := by
    simp [descVal, mD.2.2.2.2.1]
  have sG : descVal (strL "tags: " ++ joinSepList (strL ", ") names) = none := by
    simp [descVal, mG.2.2.2.2.1]
  have sS : descVal (strL "description: " ++ dsc) = some dsc := by
    simp [descVal, mS.2.2.2.2.1, hdsc, mS.2.2.2.2.2]
  have dA : dateVal (strL "author: " ++ authorValue fn ln em) = none := by
    simp [dateVal, mA.2.2.1]
  have dT : dateVal (strL "title: " ++ t) = none := by
    simp [dateVal, mT.2.2.1]
  have dD : dateVal (strL "date: " ++ dv) = some dv := by
    simp [dateVal, mD.2.2.1, hdvn, mD.2.2.2.2.2]
  have dG : dateVal (strL "tags: " ++ joinSepList (strL ", ") names) = none := by
    simp [dateVal, mG.2.2.1]
  have dS : dateVal (strL "description: " ++ dsc) = none := by
    simp [dateVal, mS.2.2.1]
  have aA : authorVal (strL "author: " ++ authorValue fn ln em) =
      some (authorValue fn ln em) := by
    simp [authorVal, mA.1, hnlav, mA.2.2.2.2.2]
  have aT : authorVal (strL "title: " ++ t) = none := by
    simp [authorVal, mT.1]
  have aD : authorVal (strL "date: " ++ dv) = none := by
    simp [authorVal, mD.1]
  have aG : authorVal (strL "tags: " ++ joinSepList (strL ", ") names) = none := by
    simp [authorVal, mG.1]
  have aS : authorVal (strL "description: " ++ dsc) = none := by
    simp [authorVal, mS.1]
  have gA : tagsOfLine (strL "author: " ++ authorValue fn ln em) = [] := by
    simp [tagsOfLine, mA.2.2.2.1]
  have gT : tagsOfLine (strL "title: " ++ t) = [] := by
    simp [tagsOfLine, mT.2.2.2.1]
  have gD : tagsOfLine (strL "date: " ++ dv) = [] := by
    simp [tagsOfLine, mD.2.2.2.1]
  have gG : tagsOfLine (strL "tags: " ++ joinSepList (strL ", ") names) =
      names.map (fun nm => { Name := nm : Tag }) := by
    rw [tagsOfLine, if_pos (by rw [mG.2.2.2.1]; exact hnj), mG.2.2.2.2.2]
    exact splitTags_joinSep names hne
      (fun nm hm => ⟨(hnames nm hm).1, (hnames nm hm).2.1⟩)
  have gS : tagsOfLine (strL "description: " ++ dsc) = [] := by
    simp [tagsOfLine, mS.2.2.2.1]
  have hTitle : lastWins titleVal
      (frontBlock fn ln em t dv (joinSepList (strL ", ") names) dsc)
      emptyPost.Title = t := by
    simp only [frontBlock, lastWins, List.foldl_cons, List.foldl_nil,
      tA, tT, tD, tG, tS, Option.getD_some, Option.getD_none]
  have hDesc : lastWins descVal
      (frontBlock fn ln em t dv (joinSepList (strL ", ") names) dsc)
      emptyPost.Description = dsc := by
    simp only [frontBlock, lastWins, List.foldl_cons, List.foldl_nil,
      sA, sT, sD, sG, sS, Option.getD_some, Option.getD_none]
  have hDate : dateFold
      (frontBlock fn ln em t dv (joinSepList (strL ", ") names) dsc)
      emptyPost.Date = dd := by
    simp only [frontBlock, dateFold, List.foldl_cons, List.foldl_nil,
      dA, dT, dD, dG, dS, hparse, Option.getD_some]
  have hTags : tagsConcat
      (frontBlock fn ln em t dv (joinSepList (strL ", ") names) dsc) =
      names.map (fun nm => { Name := nm : Tag }) := by
    simp only [tagsConcat, frontBlock, List.flatMap_cons, List.flatMap_nil,
      gA, gT, gD, gG, gS, List.nil_append, List.append_nil]
  have hAuthor : authorFold
      (frontBlock fn ln em t dv (joinSepList (strL ", ") names) dsc)
      emptyPost.Author = { emptyPost.Author with FName := fn, LName := ln, Email := em } := by
    simp only [frontBlock, authorFold, List.foldl_cons, List.foldl_nil,
      aA, aT, aD, aG, aS, Parse_authorValue emptyPost.Author fn ln em hf hl hem]
  refine ⟨?_, ?_, ?_, ?_, ?_⟩
  · rw [titleLineOf, postAfter_Title, hTitle]
  · rw [descLineOf, postAfter_Description, hDesc]
  · rw [dateLineOf, postAfter_Date, hDate, hfmt]
  · rw [tagsLineOf, postAfter_Tags, hTags]
    have hnilTags : emptyPost.Tags = [] := rfl
    rw [hnilTags, List.nil_append, tagsString_mkTags]
  · rw [authorLineOf, postAfter_Author, hAuthor]
    have hcomb : User.Combine
        { emptyPost.Author with FName := fn, LName := ln, Email := em } =
        fn ++ [' '] ++ ln := rfl
    rw [hcomb]

theorem c2_roundtrip_witness :
    loadLines (strL "p.md") emptyPost cBlock = LoadResult.ok cPost ∧
    titleLineOf cPost = strL "title: Hi" ∧
    dateLineOf cPost = strL "date: Mon, 02 Jan 2006 15:04:05 MST" ∧
    tagsLineOf cPost = strL "tags: go, web" ∧
    descLineOf cPost = strL "description: a post" ∧
    authorLineOf cPost = strL "author: Jane Doe" := by
  have hld : loadLines (strL "p.md") emptyPost
      (frontBlock (strL "Jane") (strL "Doe") (strL "jane@example.com") (strL "Hi")
        (strL "Mon, 02 Jan 2006 15:04:05 MST")
        (joinSepList (strL ", ") [strL "go", strL "web"]) (strL "a post")) =
      LoadResult.ok cPost := by rfl
  have hc := c2_roundtrip (strL "p.md") (strL "Hi") (strL "a post")
      (strL "Mon, 02 Jan 2006 15:04:05 MST") (strL "Jane") (strL "Doe")
      (strL "jane@example.com") cDate [strL "go", strL "web"] cPost
      (by decide) (by decide) (by decide) (by decide) (by decide)
      (by decide) (by decide) (by decide) (by decide) (by decide) hld
  exact ⟨by rfl, hc.1, hc.2.2.1, hc.2.2.2.1, hc.2.1, hc.2.2.2.2⟩

end Boring
